import Mathlib

/-!
Verification development for `countog.c` (glires/DeepLearning): a command-line
program that reads a FASTA/FASTQ file, builds a single lowercase nucleotide
buffer, slides a k-wide window over it counting base-4-encoded k-mers, and
prints rows of max-normalized counts.

The shallow embedding below translates the C source function by function:
  * `digitVal`, `encodeGo`, `encodeWindow`  — the window-encoding loop of
    `count_octamer` (countog.c:127-143);
  * `compCharVal`, `revcompWindow`          — the complementary-table build
    inside `count_octamer` (countog.c:145-161);
  * `toDigits`, `compDigit`, `get_complementary_oligo`
                                            — `get_complementary_oligo`
                                              (countog.c:182-211);
  * `headerName`                            — the k-mer-name reconstruction of
    `print_header` (countog.c:103-121);
  * `count_octamer`, `incLoop`, `increment_counter`
                                            — `count_octamer` plus the scanning
                                              loop `increment_counter`
                                              (countog.c:166-179); the loop is
                                              given explicit fuel because the C
                                              `while` need not terminate;
  * `rowMax`, `normalizedRow`, `mergeRun`, `mergedTotals`, `output_normalized_counts`
                                            — `output_normalized_counts`
                                              (countog.c:214-258);
  * `loadFasta`, `runPipeline`              — the FASTA branch of `main`
                                              (countog.c:338-391).
Machine `int`s are modelled as `ℕ`/`ℤ` (no overflow occurs in any evaluated
instance; `4^k` fits an `int` for every configuration the program accepts
meaningfully), and the float values printed with `%.4f` are modelled as exact
rationals, with `none : Option ℚ` standing for the non-finite result of the
unguarded `x / 0` float division.
-/

namespace Countog

/-- The end-of-buffer sentinel: C strings are NUL-terminated, and
`count_octamer` detects exhaustion by reading `'\0'`. -/
def sentinel : Char := Char.ofNat 0

/-- Reading the genome buffer at an arbitrary offset: inside the buffer the
stored character, at (and logically beyond) its end the NUL sentinel. -/
def readG (g : List Char) (p : ℕ) : Char := g.getD p sentinel

/-- Digit value of a buffer symbol, from the first `switch` of `count_octamer`
(countog.c:133-141): t↦0, c↦1, a↦2, g↦3; anything else is not a valid base. -/
def digitVal (c : Char) : Option ℕ :=
  if c = 't' then some 0
  else if c = 'c' then some 1
  else if c = 'a' then some 2
  else if c = 'g' then some 3
  else none

/-- Result of one window-encoding attempt, i.e. the `int` returned by
`count_octamer`: `-1` (buffer boundary), `i < oligo` (invalid symbol at window
position `i`), or success (the C function returns `oligo` and has accumulated
the bin index `idx`; we carry the index in the result). -/
inductive EncodeResult where
  | boundary : EncodeResult
  | invalidAt : ℕ → EncodeResult
  | full : ℕ → EncodeResult
deriving DecidableEq, Repr

/-- The encoding loop of `count_octamer` (countog.c:131-143), with the window
position `i` and the accumulator `idx` explicit; recursion is on the number of
window positions still to be read. -/
def encodeGo (g : List Char) (pos : ℕ) : ℕ → ℕ → ℕ → EncodeResult
  | _, acc, 0 => EncodeResult.full acc
  | i, acc, r + 1 =>
    let c := readG g (pos + i)
    if c = sentinel then EncodeResult.boundary
    else
      match digitVal c with
      | some n => encodeGo g pos (i + 1) (acc + n * 4 ^ i) r
      | none => EncodeResult.invalidAt i

/-- Encode the k-wide window starting at buffer offset `pos`: the pure part of
`count_octamer` (countog.c:131-143). -/
def encodeWindow (g : List Char) (pos k : ℕ) : EncodeResult :=
  encodeGo g pos 0 0 k

/-- Complement digit of a buffer symbol, from the second `switch` of
`count_octamer` (countog.c:149-157): t↦2, c↦3, a↦0, g↦1.  The default case is
`Error 3` in C and is unreachable there, because the loop only runs after the
same window encoded successfully. -/
def compCharVal (c : Char) : ℕ :=
  if c = 't' then 2
  else if c = 'c' then 3
  else if c = 'a' then 0
  else if c = 'g' then 1
  else 0

/-- The complementary bin index computed character-wise from the window itself,
as `count_octamer` stores it into the `complementary` table (countog.c:145-161):
`idc += comp(window[k-1-i]) * 4^i`. -/
def revcompWindow (g : List Char) (pos k : ℕ) : ℕ :=
  (List.range k).foldl (fun acc i => acc + compCharVal (readG g (pos + (k - 1 - i))) * 4 ^ i) 0

/-- The base-4 digits of a bin index, least significant first, exactly the
`digits[i] = fwd % 4; fwd /= 4` loop of `get_complementary_oligo`
(countog.c:193-194) and the digit extraction of `print_header`
(countog.c:109-110). -/
def toDigits : ℕ → ℕ → List ℕ
  | 0, _ => []
  | k + 1, x => x % 4 :: toDigits k (x / 4)

/-- Re-assemble a base-4 digit list (least significant first) into a number. -/
def fromDigits : List ℕ → ℕ
  | [] => 0
  | d :: ds => d + 4 * fromDigits ds

/-- Digit-level complement rule of `get_complementary_oligo`
(countog.c:197-200): 0↔2, 1↔3.  Digits outside `{0,1,2,3}` trigger `Error 4`
in C; that branch is unreachable because every digit is taken `% 4`. -/
def compDigit : ℕ → ℕ
  | 0 => 2
  | 1 => 3
  | 2 => 0
  | 3 => 1
  | n + 4 => n + 4

/-- `get_complementary_oligo` (countog.c:182-211): decompose `forward` into its
`k` base-4 digits, complement each digit, reverse the digit order and
re-encode (`rev += comp(digits[i]) * 4^(k-1-i)`). -/
def get_complementary_oligo (k forward : ℕ) : ℕ :=
  fromDigits (((toDigits k forward).map compDigit).reverse)

/-- Character printed by `print_header` for one digit (countog.c:111-114):
0↦T, 1↦C, 2↦A, 3↦G; the `Error 8` branch is unreachable (digits are `% 4`). -/
def digitToBase (d : ℕ) : Char :=
  if d = 0 then 'T'
  else if d = 1 then 'C'
  else if d = 2 then 'A'
  else if d = 3 then 'G'
  else '?'

/-- The k-character name `print_header` prints for bin `j` (countog.c:106-120):
repeated base-4 division, least significant digit printed first. -/
def headerName (k j : ℕ) : List Char := (toDigits k j).map digitToBase

/-- Case normalization applied by the sequence loader in `main`
(countog.c:358-362 and 376-380): uppercase T/C/A/G become lowercase, every
other character is copied through unchanged. -/
def normBase (c : Char) : Char :=
  if c = 'T' then 't'
  else if c = 'C' then 'c'
  else if c = 'A' then 'a'
  else if c = 'G' then 'g'
  else c

/-- The mutable state shared by `count_octamer`, `increment_counter` and
`output_normalized_counts`: the per-bin `counter` array, the lazily built
`complementary` table (entry `-1` = not yet computed, countog.c:322), and the
scan cursor `genomep` as an offset into the buffer.  The two `size_oligo`-sized
C arrays are modelled as lists indexed by bin. -/
structure PState where
  counter : List ℕ
  compl : List ℤ
  pos : ℕ

/-- Initial state set up by `main` for a bin space of size `size_oligo = 4^k`:
`counter` is allocated (and reset before each row), `complementary` entries
are all `-1` (countog.c:322), `genomep = genome` (countog.c:388). -/
def initState (size_oligo : ℕ) : PState :=
  { counter := List.replicate size_oligo 0
    compl := List.replicate size_oligo (-1)
    pos := 0 }

/-- In-place `counter[idx]++` (countog.c:144) on the counter array. -/
def bumpAt : List ℕ → ℕ → List ℕ
  | [], _ => []
  | x :: xs, 0 => (x + 1) :: xs
  | x :: xs, n + 1 => x :: bumpAt xs n

/-- The conditional store `if (complementary[idx] == -1) complementary[idx] =
idc` (countog.c:145-161) on the complementary table: the cell is written only
while it still holds the `-1` sentinel, so a cached entry is never
overwritten. -/
def fillAt : List ℤ → ℕ → ℤ → List ℤ
  | [], _, _ => []
  | x :: xs, 0, v => (if x = -1 then v else x) :: xs
  | x :: xs, n + 1, v => x :: fillAt xs n v

/-- `count_octamer` (countog.c:127-163): attempt to encode the k-window at the
cursor; on success increment that bin's count and, if the complementary table
entry is still `-1`, fill it from the window characters. -/
def count_octamer (g : List Char) (k : ℕ) (st : PState) : EncodeResult × PState :=
  match encodeWindow g st.pos k with
  | EncodeResult.full idx =>
    (EncodeResult.full idx,
      { st with counter := bumpAt st.counter idx
                compl := fillAt st.compl idx ((revcompWindow g st.pos k : ℤ)) })
  | r => (r, st)

/-- The `while (i < upto)` loop of `increment_counter` (countog.c:170-177),
with the local success count `i` and the local round counter `counter_shift`
explicit, and fuel bounding the number of iterations (the C loop need not
terminate).  On exit the C function returns `i`; the final `counter_shift` and
state are exposed so that cross-call persistence can be stated. -/
def incLoop (g : List Char) (k shift gsize : ℕ) :
    ℕ → ℕ → ℕ → ℕ → PState → Option (ℕ × ℕ × PState)
  | fuel, i, cs, upto, st =>
    if i < upto then
      match fuel with
      | 0 => none
      | fuel' + 1 =>
        match count_octamer g k st with
        | (EncodeResult.boundary, st1) =>
          let st2 := { st1 with pos := shift * cs }
          let cs2 := cs + 1
          let cs3 := if gsize ≥ shift * (cs2 + 1) then 0 else cs2
          incLoop g k shift gsize fuel' i cs3 upto { st2 with pos := st2.pos + 1 }
        | (EncodeResult.invalidAt _, st1) =>
          let cs3 := if gsize ≥ shift * (cs + 1) then 0 else cs
          incLoop g k shift gsize fuel' i cs3 upto { st1 with pos := st1.pos + 1 }
        | (EncodeResult.full _, st1) =>
          let cs3 := if gsize ≥ shift * (cs + 1) then 0 else cs
          incLoop g k shift gsize fuel' (i + 1) cs3 upto { st1 with pos := st1.pos + 1 }
    else some (i, cs, st)

/-- `increment_counter` (countog.c:166-179): the scan loop started, as in the
source, with success count `i = 0` and the local `counter_shift = 1`. -/
def increment_counter (g : List Char) (k shift gsize fuel upto : ℕ) (st : PState) :
    Option (ℕ × ℕ × PState) :=
  incLoop g k shift gsize fuel 0 1 upto st

/-- The returned success count of a scan, for stating facts about the `int`
value `increment_counter` returns. -/
def retCount (r : Option (ℕ × ℕ × PState)) : Option ℕ := r.map (fun x => x.1)

/-- Observable summary of a scan result: returned success count, final round
counter, final cursor, and the first `n` bin counts. -/
def obsScan (n : ℕ) (r : Option (ℕ × ℕ × PState)) : Option (ℕ × ℕ × ℕ × List ℕ) :=
  r.map (fun x => (x.1, x.2.1, x.2.2.pos, (List.range n).map (fun i => x.2.2.counter.getD i 0)))

/-- Maximum bin count of the non-merged branch (countog.c:224-225): a running
`if (counter[i] > max) max = counter[i]` starting from `max = 0`. -/
def rowMax (counts : ℕ → ℕ) (n : ℕ) : ℕ :=
  (List.range n).foldl (fun m i => max m (counts i)) 0

/-- The values printed by the non-merged branch of `output_normalized_counts`
(countog.c:222-231): for each bin in increasing index order,
`(float)counter[i] / max`.  The division is not guarded: when `max = 0` the
float result is `0/0` (NaN), modelled as `none`. -/
def normalizedRow (counts : ℕ → ℕ) (n : ℕ) : List (Option ℚ) :=
  let m := rowMax counts n
  (List.range n).map (fun i => if m = 0 then none else some ((counts i : ℚ) / (m : ℚ)))

/-- The pair-merging loop of the merged branch (countog.c:235-246), on the
counter array as an integer table: skip bins already marked `-1`; otherwise
emit `counter[i] + counter[complementary[i]]` and mark both cells `-1`. -/
def mergeRun (comp : ℕ → ℕ) : List ℕ → (ℕ → ℤ) → List ℤ
  | [], _ => []
  | i :: rest, cnt =>
    if cnt i = -1 then mergeRun comp rest cnt
    else (cnt i + cnt (comp i)) ::
      mergeRun comp rest (fun j => if j = i ∨ j = comp i then -1 else cnt j)

/-- The `total[]` array built by the merged branch over all `4^k` bins, with
the complement map `get_complementary_oligo k` (the lazily cached table always
holds exactly these values; see `revcompWindow_eq_get_complementary_oligo`). -/
def mergedTotals (k : ℕ) (counts : ℕ → ℕ) : List ℤ :=
  mergeRun (get_complementary_oligo k) (List.range (4 ^ k)) (fun j => (counts j : ℤ))

/-- The values printed by the merged branch (countog.c:247-253): each pair-sum
divided by the maximum pair-sum, again unguarded when the maximum is `0`. -/
def mergedRow (k : ℕ) (counts : ℕ → ℕ) : List (Option ℚ) :=
  let t := mergedTotals k counts
  let m := t.foldl max 0
  t.map (fun v => if m = 0 then none else some ((v : ℚ) / (m : ℚ)))

/-- The raw data behind one output row: the emitted sequence of counts (bin
counts in non-merged mode, pair-sums in merged mode, in emitted order) and the
row maximum the C code divides every entry by. -/
structure RowRaw where
  vals : List ℤ
  maxv : ℤ
deriving DecidableEq, Repr

/-- The float values `%.4f` receives for a row, as exact rationals:
`(float)v / max` for each emitted entry; the division is unguarded, so when
the maximum is `0` the result is non-finite (`none`). -/
def rowValues (r : RowRaw) : List (Option ℚ) :=
  r.vals.map (fun c => if r.maxv = 0 then none else some ((c : ℚ) / (r.maxv : ℚ)))

/-- One call of `output_normalized_counts` (countog.c:214-258) at the level of
the raw row data: reset the counter array, scan for `cnt` successes, then form
the emitted sequence and its maximum (merged or not).  `none` is returned only
on fuel exhaustion, i.e. when the C scan loop would not have terminated. -/
def output_normalized_counts (g : List Char) (k shift gsize cnt fuel : ℕ)
    (reduce : Bool) (st : PState) : Option (RowRaw × PState) :=
  let st0 := { st with counter := List.replicate (4 ^ k) 0 }
  match increment_counter g k shift gsize fuel cnt st0 with
  | none => none
  | some (_, _, st1) =>
    let cf : ℕ → ℕ := fun i => st1.counter.getD i 0
    let row :=
      if reduce then
        let t := mergedTotals k cf
        { vals := t, maxv := t.foldl max 0 : RowRaw }
      else
        { vals := (List.range (4 ^ k)).map (fun i => (cf i : ℤ))
          maxv := (rowMax cf (4 ^ k) : ℤ) : RowRaw }
    some (row, st1)

/-- `%.4f` rendering of the nonnegative fraction `c / m` (`m ≠ 0`): the C code
prints the float quotient with four decimal places; every value evaluated in
this development is an exact multiple of `1/10000`, for which this integer
computation agrees exactly with the printed text. -/
def fmt4N (c m : ℕ) : String :=
  let n := (c * 20000 + m) / (2 * m)
  let fs := toString (n % 10000)
  toString (n / 10000) ++ "." ++ String.mk (List.replicate (4 - fs.length) '0') ++ fs

/-- Render one emitted entry: the unguarded division by a zero maximum yields
a non-finite float, printed as a platform-defined non-numeric token ("nan"). -/
def fmtVal (c m : ℤ) : String :=
  if m = 0 then "nan" else fmt4N c.toNat m.toNat

/-- One output line (countog.c:220-256): optional label column, tab-separated
4-decimal values, trailing newline. -/
def rowString (lbl : Option String) (r : RowRaw) : String :=
  (match lbl with | some s => s ++ "\t" | none => "") ++
    String.intercalate "\t" (r.vals.map (fun c => fmtVal c r.maxv)) ++ "\n"

/-- The row loop of `main` (countog.c:391): `size_data` calls of
`output_normalized_counts`, threading the shared state (cursor, tables). -/
def emitRows (g : List Char) (k shift gsize cnt fuel : ℕ) (reduce : Bool) :
    ℕ → PState → Option (List RowRaw)
  | 0, _ => some []
  | r + 1, st =>
    match output_normalized_counts g k shift gsize cnt fuel reduce st with
    | none => none
    | some (vals, st') =>
      match emitRows g k shift gsize cnt fuel reduce r st' with
      | none => none
      | some rest => some (vals :: rest)

/-- Result of the sequence loader: the genome buffer, `gsize` (bases counted,
excluding inserted separators) and `gnsize` (including them). -/
structure LoadResult where
  buf : List Char
  gsize : ℕ
  gnsize : ℕ

/-- The FASTA branch of the loading loop in `main` (countog.c:338-386), over
the raw input lines as `fgets` returns them (trailing newline included).  A
header line contributes one `'n'` separator; a sequence line is dropped if it
would overflow the configured genome size, stopping the whole load (`break`);
otherwise each alphabetic character is appended case-normalized and the base
tallies grow by the number of alphabetic characters. -/
def loadFastaAux (sg : ℕ) : List (List Char) → LoadResult → LoadResult
  | [], acc => acc
  | line :: rest, acc =>
    if line.headD sentinel = '>' then
      loadFastaAux sg rest
        { acc with buf := acc.buf ++ ['n'], gnsize := acc.gnsize + 1 }
    else
      if sg - 1 < acc.gnsize + line.length then acc
      else
        let kept := line.filter (fun c => c.isAlpha)
        loadFastaAux sg rest
          { buf := acc.buf ++ kept.map normBase
            gsize := acc.gsize + kept.length
            gnsize := acc.gnsize + kept.length }

/-- Load a FASTA input (first line starts with `>`), as `main` does before any
counting. -/
def loadFasta (sg : ℕ) (lines : List (List Char)) : LoadResult :=
  loadFastaAux sg lines { buf := [], gsize := 0, gnsize := 0 }

/-- `main` after option parsing (countog.c:338-391): load the buffer, force the
shift unit to 1 when `gsize < size_shift` (countog.c:389), then emit
`rows` rows starting from the initial shared state. -/
def runPipelineVals (sg : ℕ) (lines : List (List Char)) (k cnt rows shift fuel : ℕ)
    (reduce : Bool) : Option (List RowRaw) :=
  let L := loadFasta sg lines
  let sh := if L.gsize < shift then 1 else shift
  emitRows L.buf k sh L.gsize cnt fuel reduce rows (initState (4 ^ k))

/-- The text lines the pipeline prints (one string per data row). -/
def runPipeline (sg : ℕ) (lines : List (List Char)) (k cnt rows shift fuel : ℕ)
    (reduce : Bool) (lbl : Option String) : Option (List String) :=
  (runPipelineVals sg lines k cnt rows shift fuel reduce).map
    (fun rows' => rows'.map (rowString lbl))

/-- The two raw input lines of the spec's end-to-end example, as `fgets`
returns them: `>seq1\n` then `TCAG\n`. -/
def c1Lines : List (List Char) :=
  [['>', 's', 'e', 'q', '1', '\n'], ['T', 'C', 'A', 'G', '\n']]

/-- The buffer the loader builds from `c1Lines`: one separator for the header
line, then the four lowercased bases. -/
def c1Buf : List Char := ['n', 't', 'c', 'a', 'g']

/-- A loaded buffer holding a single separator and no valid base (e.g. the
result of loading a FASTA file consisting of a header line only). -/
def bufN : List Char := ['n']

/-! ### Digit arithmetic: `toDigits` / `fromDigits` / `compDigit` -/

theorem toDigits_length (k : ℕ) : ∀ x, (toDigits k x).length = k := by
  induction k with
  | zero => intro x; rfl
  | succ k ih => intro x; simp [toDigits, ih]

theorem toDigits_lt (k : ℕ) : ∀ x, ∀ d ∈ toDigits k x, d < 4 := by
  induction k with
  | zero => intro x d hd; simp [toDigits] at hd
  | succ k ih =>
    intro x d hd
    simp only [toDigits, List.mem_cons] at hd
    rcases hd with h | h
    · subst h; omega
    · exact ih (x / 4) d h

theorem fromDigits_toDigits (k : ℕ) : ∀ x, x < 4 ^ k → fromDigits (toDigits k x) = x := by
  induction k with
  | zero =>
    intro x hx
    interval_cases x
    rfl
  | succ k ih =>
    intro x hx
    have hdiv : x / 4 < 4 ^ k := by
      rw [Nat.div_lt_iff_lt_mul (by norm_num)]
      calc x < 4 ^ (k + 1) := hx
        _ = 4 ^ k * 4 := by rw [pow_succ]
    simp only [toDigits, fromDigits, ih (x / 4) hdiv]
    omega

theorem toDigits_fromDigits : ∀ (ds : List ℕ), (∀ d ∈ ds, d < 4) →
    toDigits ds.length (fromDigits ds) = ds := by
  intro ds
  induction ds with
  | nil => intro _; rfl
  | cons d ds ih =>
    intro hd
    have hd4 : d < 4 := hd d (List.mem_cons_self d ds)
    have hmod : (d + 4 * fromDigits ds) % 4 = d := by omega
    have hdiv : (d + 4 * fromDigits ds) / 4 = fromDigits ds := by omega
    simp only [List.length_cons, toDigits, fromDigits, hmod, hdiv]
    exact congrArg (d :: ·) (ih (fun e he => hd e (List.mem_cons_of_mem d he)))

theorem fromDigits_lt : ∀ (ds : List ℕ), (∀ d ∈ ds, d < 4) →
    fromDigits ds < 4 ^ ds.length := by
  intro ds
  induction ds with
  | nil => intro _; simp [fromDigits]
  | cons d ds ih =>
    intro hd
    have hd4 : d < 4 := hd d (List.mem_cons_self d ds)
    have ht : fromDigits ds < 4 ^ ds.length :=
      ih (fun e he => hd e (List.mem_cons_of_mem d he))
    have : 4 ^ (d :: ds).length = 4 * 4 ^ ds.length := by
      simp [List.length_cons, pow_succ]; ring
    rw [this]
    simp only [fromDigits]
    omega

theorem compDigit_compDigit (d : ℕ) : compDigit (compDigit d) = d := by
  rcases d with _ | _ | _ | _ | d <;> rfl

theorem compDigit_lt {d : ℕ} (h : d < 4) : compDigit d < 4 := by
  rcases d with _ | _ | _ | _ | d
  · decide
  · decide
  · decide
  · decide
  · exact h

theorem get_complementary_oligo_lt (k x : ℕ) : get_complementary_oligo k x < 4 ^ k := by
  have hlen : (((toDigits k x).map compDigit).reverse).length = k := by
    simp [toDigits_length]
  have hmem : ∀ d ∈ ((toDigits k x).map compDigit).reverse, d < 4 := by
    intro d hd
    rw [List.mem_reverse] at hd
    rcases List.mem_map.1 hd with ⟨e, he, rfl⟩
    exact compDigit_lt (toDigits_lt k x e he)
  have := fromDigits_lt _ hmem
  rwa [hlen] at this

theorem get_complementary_oligo_invol (k x : ℕ) (hx : x < 4 ^ k) :
    get_complementary_oligo k (get_complementary_oligo k x) = x := by
  have hmem : ∀ d ∈ ((toDigits k x).map compDigit).reverse, d < 4 := by
    intro d hd
    rw [List.mem_reverse] at hd
    rcases List.mem_map.1 hd with ⟨e, he, rfl⟩
    exact compDigit_lt (toDigits_lt k x e he)
  have hlen : (((toDigits k x).map compDigit).reverse).length = k := by
    simp [toDigits_length]
  have hinner :
      toDigits k (get_complementary_oligo k x) = ((toDigits k x).map compDigit).reverse := by
    have h2 := toDigits_fromDigits (((toDigits k x).map compDigit).reverse) hmem
    rwa [hlen] at h2
  have hlist :
      (((((toDigits k x).map compDigit).reverse).map compDigit).reverse) = toDigits k x := by
    rw [List.map_reverse, List.reverse_reverse, List.map_map]
    have hcc : compDigit ∘ compDigit = id := funext fun d => compDigit_compDigit d
    rw [hcc, List.map_id]
  show fromDigits (((toDigits k (get_complementary_oligo k x)).map compDigit).reverse) = x
  rw [hinner, hlist]
  exact fromDigits_toDigits k x hx

/-! ### The window encoder of `count_octamer` -/

theorem digitVal_sentinel : digitVal sentinel = none := by decide

theorem ne_sentinel_of_digitVal {c : Char} {n : ℕ} (h : digitVal c = some n) :
    c ≠ sentinel := by
  intro hc
  rw [hc, digitVal_sentinel] at h
  exact Option.noConfusion h

theorem digitVal_lt {c : Char} {n : ℕ} (h : digitVal c = some n) : n < 4 := by
  unfold digitVal at h
  split_ifs at h
  all_goals first
    | (injection h with h; omega)
    | exact Option.noConfusion h

theorem encodeGo_full (g : List Char) (pos : ℕ) (d : ℕ → ℕ) :
    ∀ r i acc, (∀ q, q < r → digitVal (readG g (pos + (i + q))) = some (d (i + q))) →
      encodeGo g pos i acc r
        = EncodeResult.full (acc + ∑ q in Finset.range r, d (i + q) * 4 ^ (i + q)) := by
  intro r
  induction r with
  | zero => intro i acc _; simp [encodeGo]
  | succ r ih =>
    intro i acc h
    have h0 : digitVal (readG g (pos + i)) = some (d i) := by
      have := h 0 (by omega)
      simpa using this
    have hne : readG g (pos + i) ≠ sentinel := ne_sentinel_of_digitVal h0
    have hstep : ∀ q, q < r → digitVal (readG g (pos + (i + 1 + q))) = some (d (i + 1 + q)) := by
      intro q hq
      have := h (q + 1) (by omega)
      rwa [show i + (q + 1) = i + 1 + q by omega] at this
    simp only [encodeGo, if_neg hne, h0]
    rw [ih (i + 1) (acc + d i * 4 ^ i) hstep]
    congr 1
    rw [Finset.sum_range_succ']
    have hix : ∀ q, i + 1 + q = i + (q + 1) := by intro q; omega
    simp only [hix, Nat.add_zero]
    ring

theorem encodeGo_boundary (g : List Char) (pos : ℕ) (d : ℕ → ℕ) :
    ∀ m r i acc, m < r →
      (∀ q, q < m → digitVal (readG g (pos + (i + q))) = some (d (i + q))) →
      readG g (pos + (i + m)) = sentinel →
      encodeGo g pos i acc r = EncodeResult.boundary := by
  intro m
  induction m with
  | zero =>
    intro r i acc hm _ hs
    obtain ⟨r', rfl⟩ : ∃ r', r = r' + 1 := ⟨r - 1, by omega⟩
    rw [Nat.add_zero] at hs
    simp [encodeGo, hs]
  | succ m ih =>
    intro r i acc hm h hs
    obtain ⟨r', rfl⟩ : ∃ r', r = r' + 1 := ⟨r - 1, by omega⟩
    have h0 : digitVal (readG g (pos + i)) = some (d i) := by
      have := h 0 (by omega)
      simpa using this
    have hne : readG g (pos + i) ≠ sentinel := ne_sentinel_of_digitVal h0
    simp only [encodeGo, if_neg hne, h0]
    refine ih r' (i + 1) (acc + d i * 4 ^ i) (by omega) ?_ ?_
    · intro q hq
      have := h (q + 1) (by omega)
      rwa [show i + (q + 1) = i + 1 + q by omega] at this
    · rwa [show i + 1 + m = i + (m + 1) by omega]

theorem encodeGo_invalid (g : List Char) (pos : ℕ) (d : ℕ → ℕ) :
    ∀ m r i acc, m < r →
      (∀ q, q < m → digitVal (readG g (pos + (i + q))) = some (d (i + q))) →
      readG g (pos + (i + m)) ≠ sentinel →
      digitVal (readG g (pos + (i + m))) = none →
      encodeGo g pos i acc r = EncodeResult.invalidAt (i + m) := by
  intro m
  induction m with
  | zero =>
    intro r i acc hm _ hs hv
    obtain ⟨r', rfl⟩ : ∃ r', r = r' + 1 := ⟨r - 1, by omega⟩
    rw [Nat.add_zero] at hs hv
    simp [encodeGo, if_neg hs, hv]
  | succ m ih =>
    intro r i acc hm h hs hv
    obtain ⟨r', rfl⟩ : ∃ r', r = r' + 1 := ⟨r - 1, by omega⟩
    have h0 : digitVal (readG g (pos + i)) = some (d i) := by
      have := h 0 (by omega)
      simpa using this
    have hne : readG g (pos + i) ≠ sentinel := ne_sentinel_of_digitVal h0
    simp only [encodeGo, if_neg hne, h0]
    have hix : i + (m + 1) = i + 1 + m := by omega
    rw [hix] at hs hv
    have := ih r' (i + 1) (acc + d i * 4 ^ i) (by omega) ?_ hs hv
    · rwa [show i + 1 + m = i + (m + 1) by omega] at this
    · intro q hq
      have := h (q + 1) (by omega)
      rwa [show i + (q + 1) = i + 1 + q by omega] at this

theorem encodeGo_full_valid (g : List Char) (pos : ℕ) :
    ∀ r i acc v, encodeGo g pos i acc r = EncodeResult.full v →
      ∀ q, q < r → (digitVal (readG g (pos + (i + q)))).isSome := by
  intro r
  induction r with
  | zero => intro i acc v _ q hq; omega
  | succ r ih =>
    intro i acc v h q hq
    by_cases hs : readG g (pos + i) = sentinel
    · simp [encodeGo, hs] at h
    · rcases hv : digitVal (readG g (pos + i)) with _ | n
      · simp [encodeGo, if_neg hs, hv] at h
      · simp only [encodeGo, if_neg hs, hv] at h
        rcases Nat.eq_zero_or_pos q with rfl | hq0
        · simp [hv]
        · have := ih (i + 1) (acc + n * 4 ^ i) v h (q - 1) (by omega)
          rwa [show i + 1 + (q - 1) = i + q by omega] at this

/-! ### Sums, folds and digit lists -/

theorem foldl_add_sum (f : ℕ → ℕ) (n : ℕ) :
    ∀ a, (List.range n).foldl (fun acc i => acc + f i) a = a + ∑ i in Finset.range n, f i := by
  induction n with
  | zero => intro a; simp
  | succ n ih =>
    intro a
    rw [List.range_succ, List.foldl_append, ih, Finset.sum_range_succ]
    simp [Nat.add_assoc]

theorem fromDigits_append (l1 l2 : List ℕ) :
    fromDigits (l1 ++ l2) = fromDigits l1 + 4 ^ l1.length * fromDigits l2 := by
  induction l1 with
  | nil => simp [fromDigits]
  | cons d l1 ih =>
    show d + 4 * fromDigits (l1 ++ l2) = fromDigits (d :: l1) + 4 ^ (d :: l1).length * fromDigits l2
    rw [ih]
    simp only [fromDigits, List.length_cons, pow_succ]
    ring

theorem fromDigits_map_range (d : ℕ → ℕ) (k : ℕ) :
    fromDigits ((List.range k).map d) = ∑ q in Finset.range k, d q * 4 ^ q := by
  induction k with
  | zero => simp [fromDigits]
  | succ k ih =>
    rw [List.range_succ, List.map_append, fromDigits_append, ih, Finset.sum_range_succ]
    simp [fromDigits, List.length_map, List.length_range, Nat.mul_comm]

theorem reverse_map_range (f : ℕ → ℕ) (k : ℕ) :
    ((List.range k).map f).reverse = (List.range k).map (fun i => f (k - 1 - i)) := by
  have h1 : (List.range k).reverse = List.map (fun i => 0 + k - 1 - i) (List.range k) := by
    conv_lhs => rw [List.range_eq_range']
    exact List.reverse_range' 0 k
  rw [← List.map_reverse, h1, List.map_map]
  apply List.map_congr_left
  intro a _
  simp [Function.comp]

/-- The complementary index `count_octamer` computes from the window characters
(countog.c:145-161) agrees with `get_complementary_oligo` applied to the bin
index of the same window: the lazily cached `complementary[]` entries always
hold exactly the values `get_complementary_oligo` would produce. -/
theorem revcompWindow_eq_get_complementary_oligo (g : List Char) (pos k : ℕ) (d : ℕ → ℕ)
    (h : ∀ q, q < k → digitVal (readG g (pos + q)) = some (d q)) :
    revcompWindow g pos k
      = get_complementary_oligo k (∑ q in Finset.range k, d q * 4 ^ q) := by
  have hd4 : ∀ q, q < k → d q < 4 := fun q hq => digitVal_lt (h q hq)
  have hx : toDigits k (∑ q in Finset.range k, d q * 4 ^ q) = (List.range k).map d := by
    rw [← fromDigits_map_range]
    have hmem : ∀ e ∈ (List.range k).map d, e < 4 := by
      intro e he
      rcases List.mem_map.1 he with ⟨q, hq, rfl⟩
      exact hd4 q (List.mem_range.1 hq)
    have := toDigits_fromDigits ((List.range k).map d) hmem
    rwa [List.length_map, List.length_range] at this
  have hcomp : ∀ q, q < k → compCharVal (readG g (pos + q)) = compDigit (d q) := by
    intro q hq
    have hdv := h q hq
    unfold digitVal at hdv
    unfold compCharVal
    split_ifs at hdv ⊢ <;>
      first
        | (injection hdv with hdv; rw [← hdv]; rfl)
        | exact Option.noConfusion hdv
  unfold get_complementary_oligo
  rw [hx, List.map_map, reverse_map_range, fromDigits_map_range]
  unfold revcompWindow
  rw [foldl_add_sum, Nat.zero_add]
  apply Finset.sum_congr rfl
  intro i hi
  rw [Finset.mem_range] at hi
  rw [hcomp (k - 1 - i) (by omega)]
  simp [Function.comp]

/-! ### The complementary-merging loop of `output_normalized_counts` -/

theorem mergeRun_spec (comp : ℕ → ℕ) (counts : ℕ → ℕ) (n : ℕ)
    (hinv : ∀ j, j < n → comp (comp j) = j) (hlt : ∀ j, j < n → comp j < n) :
    ∀ (r a : ℕ) (cnt : ℕ → ℤ), a + r = n →
      (∀ j, j < n → cnt j = if j < a ∨ comp j < a then (-1 : ℤ) else (counts j : ℤ)) →
      mergeRun comp (List.range' a r) cnt
        = ((List.range' a r).filter (fun i => decide (i ≤ comp i))).map
            (fun i => (counts i : ℤ) + (counts (comp i) : ℤ)) := by
  intro r
  induction r with
  | zero => intro a cnt _ _; simp [mergeRun]
  | succ r ih =>
    intro a cnt hn hmask
    have ha : a < n := by omega
    rw [List.range'_succ]
    by_cases hca : comp a < a
    · -- the bin was already consumed when its complement was processed earlier
      have hcnta : cnt a = -1 := by
        rw [hmask a ha, if_pos (Or.inr hca)]
      have hstep : mergeRun comp (a :: List.range' (a + 1) r) cnt
          = mergeRun comp (List.range' (a + 1) r) cnt := by
        simp [mergeRun, hcnta]
      have hfilter : decide (a ≤ comp a) = false := by
        simp only [decide_eq_false_iff_not]
        omega
      rw [hstep, List.filter_cons, hfilter]
      simp only [Bool.false_eq_true, if_false]
      apply ih (a + 1) cnt (by omega)
      intro j hj
      rw [hmask j hj]
      by_cases h1 : j < a ∨ comp j < a
      · rw [if_pos h1, if_pos (by omega)]
      · push_neg at h1
        by_cases h2 : j = a
        · subst h2
          omega
        · by_cases h3 : comp j = a
          · have hj2 := hinv j hj
            rw [h3] at hj2
            omega
          · rw [if_neg (by omega), if_neg (by omega)]
    · -- fresh pair {a, comp a}: emit the pair-sum and mark both cells consumed
      have hcnta : cnt a = (counts a : ℤ) := by
        rw [hmask a ha, if_neg (by omega)]
      have hcompa_lt : comp a < n := hlt a ha
      have h4 : comp (comp a) = a := hinv a ha
      have hcntca : cnt (comp a) = (counts (comp a) : ℤ) := by
        rw [hmask (comp a) hcompa_lt, if_neg (by omega)]
      have hne : ¬ cnt a = -1 := by
        rw [hcnta]
        omega
      have hstep : mergeRun comp (a :: List.range' (a + 1) r) cnt
          = (cnt a + cnt (comp a)) ::
              mergeRun comp (List.range' (a + 1) r)
                (fun j => if j = a ∨ j = comp a then -1 else cnt j) := by
        simp [mergeRun, hne]
      have hfilter : decide (a ≤ comp a) = true := by
        simp only [decide_eq_true_eq]
        omega
      rw [hstep, List.filter_cons, hfilter]
      simp only [if_true]
      rw [List.map_cons, hcnta, hcntca]
      congr 1
      apply ih (a + 1) _ (by omega)
      intro j hj
      by_cases h2 : j = a ∨ j = comp a
      · rw [if_pos h2, if_pos ?_]
        rcases h2 with rfl | rfl
        · left
          omega
        · right
          rw [h4]
          omega
      · push_neg at h2
        rw [if_neg (by tauto), hmask j hj]
        by_cases h1 : j < a ∨ comp j < a
        · rw [if_pos h1, if_pos (by omega)]
        · push_neg at h1
          have hja : j ≠ a := h2.1
          have hcja : comp j ≠ a := by
            intro hc
            have hj2 := hinv j hj
            rw [hc] at hj2
            exact h2.2 hj2.symm
          rw [if_neg (by omega), if_neg (by omega)]

theorem mergedTotals_eq (k : ℕ) (counts : ℕ → ℕ) :
    mergedTotals k counts
      = ((List.range (4 ^ k)).filter
            (fun i => decide (i ≤ get_complementary_oligo k i))).map
          (fun i => (counts i : ℤ) + (counts (get_complementary_oligo k i) : ℤ)) := by
  unfold mergedTotals
  rw [List.range_eq_range']
  exact mergeRun_spec (get_complementary_oligo k) counts (4 ^ k)
    (fun j hj => get_complementary_oligo_invol k j hj)
    (fun j _ => get_complementary_oligo_lt k j)
    (4 ^ k) 0 _ (by omega)
    (fun j _ => by simp)

theorem filter_map_sum_range (n : ℕ) (p : ℕ → Bool) (f : ℕ → ℤ) :
    (((List.range n).filter p).map f).sum
      = ∑ i in Finset.range n, if p i then f i else 0 := by
  induction n with
  | zero => simp
  | succ n ih =>
    rw [List.range_succ, List.filter_append, List.map_append, List.sum_append, ih,
      Finset.sum_range_succ]
    by_cases hp : p n
    · simp [List.filter_cons, hp]
    · simp [List.filter_cons, hp]

theorem sum_pairs_no_fixpoint (n : ℕ) (comp : ℕ → ℕ) (f : ℕ → ℤ)
    (hinv : ∀ j, j < n → comp (comp j) = j) (hlt : ∀ j, j < n → comp j < n)
    (hnf : ∀ j, j < n → comp j ≠ j) :
    (∑ i in Finset.range n, if i ≤ comp i then f i + f (comp i) else 0)
      = ∑ i in Finset.range n, f i := by
  have hps : ∀ i ∈ Finset.range n, (if i ≤ comp i then f i + f (comp i) else 0)
      = if i < comp i then f i + f (comp i) else 0 := by
    intro i hi
    rw [Finset.mem_range] at hi
    have := hnf i hi
    by_cases h : i < comp i
    · rw [if_pos (le_of_lt h), if_pos h]
    · rw [if_neg (by omega), if_neg h]
  rw [Finset.sum_congr rfl hps, ← Finset.sum_filter, Finset.sum_add_distrib]
  have himg : ((Finset.range n).filter (fun i => i < comp i)).image comp
      = (Finset.range n).filter (fun i => comp i < i) := by
    ext j
    simp only [Finset.mem_image, Finset.mem_filter, Finset.mem_range]
    constructor
    · rintro ⟨i, ⟨hi, hlt2⟩, rfl⟩
      exact ⟨hlt i hi, by rw [hinv i hi]; exact hlt2⟩
    · rintro ⟨hj, hlt2⟩
      exact ⟨comp j, ⟨hlt j hj, by rw [hinv j hj]; exact hlt2⟩, hinv j hj⟩
  have h2 : (∑ i in (Finset.range n).filter (fun i => i < comp i), f (comp i))
      = ∑ j in (Finset.range n).filter (fun i => comp i < i), f j := by
    rw [← himg, Finset.sum_image ?hi]
    case hi =>
      intro x hx y hy hxy
      rw [Finset.mem_filter, Finset.mem_range] at hx hy
      calc x = comp (comp x) := (hinv x hx.1).symm
        _ = comp (comp y) := by rw [hxy]
        _ = y := hinv y hy.1
  rw [h2]
  have h3 : (Finset.range n).filter (fun i => comp i < i)
      = (Finset.range n).filter (fun i => ¬ i < comp i) := by
    apply Finset.filter_congr
    intro i hi
    rw [Finset.mem_range] at hi
    have := hnf i hi
    constructor
    · intro h
      omega
    · intro h
      omega
  rw [h3, Finset.sum_filter_add_sum_filter_not]

/-! ### The scanning loop `increment_counter` -/

theorem incLoop_exit (g : List Char) (k shift gsize fuel i cs upto : ℕ) (st : PState)
    (h : ¬ i < upto) : incLoop g k shift gsize fuel i cs upto st = some (i, cs, st) := by
  rw [incLoop.eq_def]
  simp [h]

theorem incLoop_returns_upto (g : List Char) (k shift gsize : ℕ) (upto : ℕ) :
    ∀ fuel i cs st n cs' st', i ≤ upto →
      incLoop g k shift gsize fuel i cs upto st = some (n, cs', st') → n = upto := by
  intro fuel
  induction fuel with
  | zero =>
    intro i cs st n cs' st' hle h
    by_cases hi : i < upto
    · rw [incLoop.eq_def] at h
      simp [hi] at h
    · rw [incLoop_exit g k shift gsize 0 i cs upto st hi] at h
      injection h with h1
      injection h1 with h1 h2
      omega
  | succ fuel ih =>
    intro i cs st n cs' st' hle h
    by_cases hi : i < upto
    · rw [show incLoop g k shift gsize (fuel + 1) i cs upto st
            = (match count_octamer g k st with
              | (EncodeResult.boundary, st1) =>
                incLoop g k shift gsize fuel i
                  (if gsize ≥ shift * (cs + 1 + 1) then 0 else cs + 1) upto
                  { st1 with pos := shift * cs + 1 }
              | (EncodeResult.invalidAt _, st1) =>
                incLoop g k shift gsize fuel i
                  (if gsize ≥ shift * (cs + 1) then 0 else cs) upto
                  { st1 with pos := st1.pos + 1 }
              | (EncodeResult.full _, st1) =>
                incLoop g k shift gsize fuel (i + 1)
                  (if gsize ≥ shift * (cs + 1) then 0 else cs) upto
                  { st1 with pos := st1.pos + 1 }) from by
          rw [incLoop.eq_def]
          simp [hi]] at h
      rcases hco : count_octamer g k st with ⟨res, st1⟩
      rw [hco] at h
      cases res with
      | boundary => exact ih i _ _ n cs' st' hle h
      | invalidAt m => exact ih i _ _ n cs' st' hle h
      | full idx => exact ih (i + 1) _ _ n cs' st' (by omega) h
    · rw [incLoop_exit g k shift gsize (fuel + 1) i cs upto st hi] at h
      injection h with h1
      injection h1 with h1 h2
      omega

theorem map_range_getD (l : List ℕ) (d : ℕ) :
    (List.range l.length).map (fun q => l.getD q d) = l := by
  induction l with
  | nil => simp
  | cons a l ih =>
    rw [List.length_cons, List.range_succ_eq_map, List.map_cons, List.map_map]
    have h1 : ((fun q => (a :: l).getD q d) ∘ (· + 1)) = fun q => l.getD q d := by
      funext q
      rfl
    rw [h1, ih]
    rfl

theorem sum_getD_fromDigits (ds : List ℕ) :
    (∑ q in Finset.range ds.length, ds.getD q 0 * 4 ^ q) = fromDigits ds := by
  rw [← fromDigits_map_range, map_range_getD]

theorem digitVal_normBase_digitToBase {e : ℕ} (he : e < 4) :
    digitVal (normBase (digitToBase e)) = some e := by
  interval_cases e <;> decide

/-- C5: the reverse-complement map on bin indices is an involution: for every
`k` and every bin index `i < 4^k`, `complement (complement i) = i`. -/
theorem complementary_involution (k i : ℕ) (hi : i < 4 ^ k) :
    get_complementary_oligo k (get_complementary_oligo k i) = i :=
  get_complementary_oligo_invol k i hi

theorem complementary_involution_witness :
    7 < 4 ^ 2 ∧ get_complementary_oligo 2 (get_complementary_oligo 2 7) = 7 :=
  ⟨by decide, complementary_involution 2 7 (by decide)⟩

/-- C6: the codec is a bijection between k-length base strings and `[0, 4^k)`:
decoding a bin index `j < 4^k` to its k-character name by repeated base-4
division (`headerName`, least significant digit first, 0↦T,1↦C,2↦A,3↦G) and
re-encoding that string (case-normalized as the loader stores it) through the
positional base-4 window encoder yields `j` again. -/
theorem header_roundtrip (k j : ℕ) (hj : j < 4 ^ k) :
    encodeWindow ((headerName k j).map normBase) 0 k = EncodeResult.full j := by
  have hklen : (toDigits k j).length = k := toDigits_length k j
  have hlen : ((headerName k j).map normBase).length = k := by
    simp [headerName, toDigits_length]
  have hval : ∀ q, q < k →
      digitVal (readG ((headerName k j).map normBase) (0 + (0 + q)))
        = some ((toDigits k j).getD q 0) := by
    intro q hq
    have hq' : q < ((headerName k j).map normBase).length := by rw [hlen]; exact hq
    have hq2 : q < (toDigits k j).length := by rw [hklen]; exact hq
    rw [Nat.zero_add, Nat.zero_add]
    unfold readG
    rw [List.getD_eq_getElem _ _ hq']
    unfold headerName
    rw [List.getElem_map, List.getElem_map]
    rw [List.getD_eq_getElem _ _ hq2]
    exact digitVal_normBase_digitToBase (toDigits_lt k j _ (List.getElem_mem _))
  have hfull := encodeGo_full ((headerName k j).map normBase) 0
    (fun q => (toDigits k j).getD q 0) k 0 0
    (by intro q hq; simpa using hval q hq)
  rw [encodeWindow, hfull]
  congr 1
  simp only [Nat.zero_add]
  calc (∑ q in Finset.range k, (toDigits k j).getD q 0 * 4 ^ q)
      = ∑ q in Finset.range (toDigits k j).length, (toDigits k j).getD q 0 * 4 ^ q := by
        rw [hklen]
    _ = fromDigits (toDigits k j) := sum_getD_fromDigits _
    _ = j := fromDigits_toDigits k j hj

theorem header_roundtrip_witness :
    9 < 4 ^ 2
    ∧ headerName 2 9 = ['C', 'A']
    ∧ encodeWindow ((headerName 2 9).map normBase) 0 2 = EncodeResult.full 9 :=
  ⟨by decide, by decide, header_roundtrip 2 9 (by decide)⟩

/-- C2: the window encoder of `count_octamer`, at any buffer offset `pos`:
(1) a window of `k` valid symbols with digit values `d 0 .. d (k-1)` encodes
to the bin index `∑ i < k, d i * 4^i` (t=0, c=1, a=2, g=3);
(2) if the NUL sentinel is met at window position `m < k` after `m` valid
symbols, the boundary signal (C return value `-1`) results;
(3) if the first non-{t,c,a,g} symbol (not the sentinel) is met at window
position `m < k` after `m` valid symbols, the count `m` of valid symbols
consumed so far is returned. -/
theorem count_octamer_encode_spec (g : List Char) (pos k : ℕ) (d : ℕ → ℕ) (m : ℕ) :
    ((∀ q, q < k → digitVal (readG g (pos + q)) = some (d q)) →
      encodeWindow g pos k = EncodeResult.full (∑ q in Finset.range k, d q * 4 ^ q))
    ∧ (m < k → (∀ q, q < m → digitVal (readG g (pos + q)) = some (d q)) →
        readG g (pos + m) = sentinel →
        encodeWindow g pos k = EncodeResult.boundary)
    ∧ (m < k → (∀ q, q < m → digitVal (readG g (pos + q)) = some (d q)) →
        readG g (pos + m) ≠ sentinel → digitVal (readG g (pos + m)) = none →
        encodeWindow g pos k = EncodeResult.invalidAt m) := by
  refine ⟨?_, ?_, ?_⟩
  · intro h
    have hfull := encodeGo_full g pos d k 0 0 (by intro q hq; simpa using h q hq)
    rw [encodeWindow, hfull]
    congr 1
    simp
  · intro hm h hs
    exact encodeGo_boundary g pos d m k 0 0 hm (by intro q hq; simpa using h q hq)
      (by simpa using hs)
  · intro hm h hs hv
    have := encodeGo_invalid g pos d m k 0 0 hm (by intro q hq; simpa using h q hq)
      (by simpa using hs) (by simpa using hv)
    simpa using this

theorem count_octamer_encode_spec_witness :
    encodeWindow ['t', 'c'] 0 2 = EncodeResult.full 4
    ∧ encodeWindow ['t'] 0 2 = EncodeResult.boundary
    ∧ encodeWindow ['n', 't'] 0 2 = EncodeResult.invalidAt 0 := by
  refine ⟨?_, ?_, ?_⟩
  · have h := (count_octamer_encode_spec ['t', 'c'] 0 2 (fun q => if q = 0 then 0 else 1) 0).1
      (by intro q hq; interval_cases q <;> decide)
    rw [h]
    congr 1
  · exact (count_octamer_encode_spec ['t'] 0 2 (fun _ => 0) 1).2.1 (by omega)
      (by intro q hq; interval_cases q <;> decide) (by decide)
  · exact (count_octamer_encode_spec ['n', 't'] 0 2 (fun _ => 0) 0).2.2 (by omega)
      (fun q hq => absurd hq (by omega)) (by decide) (by decide)

/-- C7: in merged mode, for any count table over a bin space with no
self-complementary bin, the sum of all emitted pair-sums equals the sum of all
raw bin counts: every bin's count lands in exactly one pair-sum, none dropped,
none counted twice. -/
theorem merged_pairsums_sum (k : ℕ) (counts : ℕ → ℕ)
    (hnoself : ∀ i, i < 4 ^ k → get_complementary_oligo k i ≠ i) :
    (mergedTotals k counts).sum = ∑ i in Finset.range (4 ^ k), (counts i : ℤ) := by
  rw [mergedTotals_eq, filter_map_sum_range]
  simp only [decide_eq_true_eq]
  exact sum_pairs_no_fixpoint (4 ^ k) (get_complementary_oligo k) (fun i => (counts i : ℤ))
    (fun j hj => get_complementary_oligo_invol k j hj)
    (fun j _ => get_complementary_oligo_lt k j)
    hnoself

theorem merged_pairsums_sum_witness :
    (∀ i, i < 4 ^ 1 → get_complementary_oligo 1 i ≠ i)
    ∧ (mergedTotals 1 (fun i => i + 1)).sum
        = ∑ i in Finset.range (4 ^ 1), ((i + 1 : ℕ) : ℤ) :=
  ⟨by decide, merged_pairsums_sum 1 (fun i => i + 1) (by decide)⟩

/-- C10: in merged mode, a self-complementary bin (`complement i = i`) has its
count added to itself: the pair-sum the emitter forms for it is twice its raw
count, before the row maximum is taken and the values are normalized. -/
theorem merged_selfcomplementary_doubled (k : ℕ) (counts : ℕ → ℕ) (i : ℕ)
    (hi : i < 4 ^ k) (hself : get_complementary_oligo k i = i) :
    (2 * (counts i : ℤ)) ∈ mergedTotals k counts := by
  rw [mergedTotals_eq]
  refine List.mem_map.2 ⟨i, ?_, ?_⟩
  · refine List.mem_filter.2 ⟨List.mem_range.2 hi, ?_⟩
    simp [hself]
  · rw [hself]
    ring

theorem merged_selfcomplementary_doubled_witness :
    8 < 4 ^ 2 ∧ get_complementary_oligo 2 8 = 8
    ∧ (2 * ((5 : ℕ) : ℤ)) ∈ mergedTotals 2 (fun _ => 5) :=
  ⟨by decide, by decide,
    merged_selfcomplementary_doubled 2 (fun _ => 5) 8 (by decide) (by decide)⟩

/-- C8 (amended): whenever the scanning loop returns, the number of recorded
full-window counts equals `target_successes`, and that count is the returned
value: the `while (i < upto)` loop exits exactly when `i` reaches `upto`. -/
theorem increment_counter_returns_target (g : List Char) (k shift gsize fuel upto : ℕ)
    (st : PState) (n cs' : ℕ) (st' : PState)
    (h : increment_counter g k shift gsize fuel upto st = some (n, cs', st')) : n = upto :=
  incLoop_returns_upto g k shift gsize upto fuel 0 1 st n cs' st' (by omega) h

theorem increment_counter_returns_target_witness :
    retCount (increment_counter ['t'] 1 1 1 3 1 (initState 4)) = some 1 := by
  have hs : (increment_counter ['t'] 1 1 1 3 1 (initState 4)).isSome = true := by decide
  cases hx : increment_counter ['t'] 1 1 1 3 1 (initState 4) with
  | none => rw [hx] at hs; simp at hs
  | some r =>
    obtain ⟨n, cs, st'⟩ := r
    have hn := increment_counter_returns_target ['t'] 1 1 1 3 1 (initState 4) n cs st' hx
    simp [retCount, hx, hn]

theorem incLoop_bufN_none :
    ∀ (fuel cs : ℕ) (st : PState), 1 ≤ st.pos →
      incLoop bufN 1 1 0 fuel 0 cs 1 st = none := by
  intro fuel
  induction fuel with
  | zero =>
    intro cs st hpos
    rw [incLoop.eq_def]
    simp
  | succ fuel ih =>
    intro cs st hpos
    have hread : readG bufN st.pos = sentinel := by
      unfold readG bufN
      apply List.getD_eq_default
      simpa using hpos
    have henc : encodeWindow bufN st.pos 1 = EncodeResult.boundary := by
      unfold encodeWindow
      rw [encodeGo.eq_def]
      simp [hread]
    have hco : count_octamer bufN 1 st = (EncodeResult.boundary, st) := by
      unfold count_octamer
      rw [henc]
    rw [incLoop.eq_def]
    simp only [Nat.zero_lt_one, if_true, hco]
    rw [if_neg (by omega)]
    exact ih (cs + 1) _ (by simp)

/-- C8 counterexample: on a buffer holding a single separator and no valid
base (gsize 0, shift forced to 1), the scanning loop never records a success
and never terminates — no amount of fuel makes `increment_counter` return. -/
theorem increment_counter_no_termination :
    ¬ ∃ (fuel n cs : ℕ) (st' : PState),
        increment_counter bufN 1 1 0 fuel 1 (initState 4) = some (n, cs, st') := by
  rintro ⟨fuel, n, cs, st', h⟩
  unfold increment_counter at h
  cases fuel with
  | zero =>
    rw [incLoop.eq_def] at h
    simp at h
  | succ fuel =>
    rw [incLoop.eq_def] at h
    simp only [Nat.zero_lt_one, if_true] at h
    rw [show count_octamer bufN 1 (initState 4) = (EncodeResult.invalidAt 0, initState 4)
        from rfl] at h
    simp only at h
    rw [if_neg (by omega : ¬ (0 : ℕ) ≥ 1 * (1 + 1))] at h
    rw [incLoop_bufN_none fuel 1 _ (by simp [initState])] at h
    exact Option.noConfusion h

/-! ### Row normalization (non-merged branch) -/

theorem foldl_max_le_init (counts : ℕ → ℕ) :
    ∀ (l : List ℕ) (a : ℕ), a ≤ l.foldl (fun m i => max m (counts i)) a := by
  intro l
  induction l with
  | nil => intro a; simp
  | cons b l ih =>
    intro a
    exact le_trans (le_max_left a (counts b)) (ih (max a (counts b)))

theorem mem_le_foldl_max (counts : ℕ → ℕ) :
    ∀ (l : List ℕ) (a b : ℕ), b ∈ l →
      counts b ≤ l.foldl (fun m i => max m (counts i)) a := by
  intro l
  induction l with
  | nil => intro a b hb; simp at hb
  | cons c l ih =>
    intro a b hb
    rcases List.mem_cons.1 hb with rfl | hb
    · exact le_trans (le_max_right a (counts b)) (foldl_max_le_init counts l _)
    · exact ih _ b hb

theorem counts_le_rowMax (counts : ℕ → ℕ) (n i : ℕ) (hi : i < n) :
    counts i ≤ rowMax counts n :=
  mem_le_foldl_max counts (List.range n) 0 i (List.mem_range.2 hi)

/-- C4 counterexample: when every bin count is zero (reachable with counting
size 0), the row maximum is 0 and the division is not guarded — the emitted
values are the non-finite result of the float division 0/0 (modelled `none`),
not the 0 the claim promises. -/
theorem normalizedRow_zero_max_nan :
    rowMax (fun _ => 0) 16 = 0
    ∧ normalizedRow (fun _ => 0) 16 = List.replicate 16 none
    ∧ (none : Option ℚ) ≠ some 0 := by
  refine ⟨by decide, by decide, by simp⟩

/-- C4 (amended): in non-merged mode the emitter outputs, for every bin in
increasing bin-index order, that bin's count divided by the row maximum, and
every such value is at most 1; but the division is NOT guarded: when the
maximum is 0 (an all-zero row) every emitted value is the non-finite 0/0
(NaN), not 0. -/
theorem normalizedRow_spec (counts : ℕ → ℕ) (n : ℕ) :
    (rowMax counts n = 0 → normalizedRow counts n = List.replicate n none)
    ∧ (rowMax counts n ≠ 0 →
        normalizedRow counts n
          = (List.range n).map (fun i => some ((counts i : ℚ) / (rowMax counts n : ℚ)))
        ∧ ∀ i, i < n → (counts i : ℚ) / (rowMax counts n : ℚ) ≤ 1) := by
  constructor
  · intro hm
    unfold normalizedRow
    simp only [hm, if_pos rfl]
    simp [List.map_const', List.length_range]
  · intro hm
    constructor
    · unfold normalizedRow
      simp only [if_neg hm]
    · intro i hi
      apply div_le_one_of_le
      · have h1 := counts_le_rowMax counts n i hi
        exact_mod_cast h1
      · positivity

theorem normalizedRow_spec_witness :
    rowMax (fun i => i) 4 ≠ 0
    ∧ normalizedRow (fun i => i) 4
        = (List.range 4).map (fun i => some ((i : ℚ) / (rowMax (fun i => i) 4 : ℚ)))
    ∧ normalizedRow (fun _ => 0) 3 = List.replicate 3 none :=
  ⟨by decide, ((normalizedRow_spec (fun i => i) 4).2 (by decide)).1,
    (normalizedRow_spec (fun _ => 0) 3).1 (by decide)⟩

set_option maxHeartbeats 4000000 in
/-- C3 counterexample: the round counter does not persist across invocations.
On the buffer `ntcag` (k=1, shift forced to 1, gsize 4), a first call for 4
successes returns with round counter 0 and cursor 5; the actual second call —
which re-initializes the local `counter_shift` to 1 — behaves observably
differently from a hypothetical second call that started from the returned
round counter 0 (they relocate to different offsets at the buffer boundary and
count different bins). -/
theorem round_counter_not_persistent :
    obsScan 4 (increment_counter c1Buf 1 1 4 20 4 (initState 4))
        = some (4, 0, 5, [1, 1, 1, 1])
    ∧ ((increment_counter c1Buf 1 1 4 20 4 (initState 4)).bind
          (fun r => obsScan 4 (increment_counter c1Buf 1 1 4 20 1 r.2.2))
        ≠ (increment_counter c1Buf 1 1 4 20 4 (initState 4)).bind
          (fun r => obsScan 4 (incLoop c1Buf 1 1 4 20 0 r.2.1 1 r.2.2))) := by
  constructor
  · decide
  · decide

set_option maxHeartbeats 4000000 in
/-- C3 (amended): the scan cursor (and the shared count/complement tables)
persists across invocations of the scanning counter — each call starts from
exactly the state the previous call returned — but the round counter does not:
every invocation re-enters the loop with success count 0 and `counter_shift`
re-initialized to 1.  Concretely, on `ntcag` the second call resumes at the
returned cursor 5 (the buffer boundary) and counts the bin of `c`, rather than
restarting at offset 0. -/
theorem scan_state_across_calls :
    (∀ (g : List Char) (k shift gsize fuel upto : ℕ) (st : PState),
        increment_counter g k shift gsize fuel upto st
          = incLoop g k shift gsize fuel 0 1 upto st)
    ∧ obsScan 4 ((increment_counter c1Buf 1 1 4 20 4 (initState 4)).bind
          (fun r => increment_counter c1Buf 1 1 4 20 1 r.2.2))
        = some (1, 0, 3, [1, 2, 1, 1]) := by
  constructor
  · intro g k shift gsize fuel upto st
    rfl
  · decide

/-- C9: before any row is emitted, a loaded genome with fewer counted bases
than the configured shift size forces the shift unit to 1: every row of the
pipeline is produced with shift 1. -/
theorem shift_forced_to_one (sg : ℕ) (lines : List (List Char))
    (k cnt rows shift fuel : ℕ) (reduce : Bool)
    (h : (loadFasta sg lines).gsize < shift) :
    runPipelineVals sg lines k cnt rows shift fuel reduce
      = emitRows (loadFasta sg lines).buf k 1 (loadFasta sg lines).gsize cnt fuel reduce
          rows (initState (4 ^ k)) := by
  show emitRows (loadFasta sg lines).buf k
      (if (loadFasta sg lines).gsize < shift then 1 else shift)
      (loadFasta sg lines).gsize cnt fuel reduce rows (initState (4 ^ k))
    = emitRows (loadFasta sg lines).buf k 1 (loadFasta sg lines).gsize cnt fuel reduce rows
        (initState (4 ^ k))
  rw [if_pos h]

set_option maxHeartbeats 2000000 in
theorem shift_forced_to_one_witness :
    (loadFasta (2 ^ 32) c1Lines).gsize < 9
    ∧ runPipelineVals (2 ^ 32) c1Lines 2 3 1 9 20 false
        = emitRows (loadFasta (2 ^ 32) c1Lines).buf 2 1 (loadFasta (2 ^ 32) c1Lines).gsize
            3 20 false 1 (initState (4 ^ 2)) :=
  ⟨by decide, shift_forced_to_one (2 ^ 32) c1Lines 2 3 1 9 20 false (by decide)⟩

set_option maxHeartbeats 8000000 in
/-- C1 (amended): on the FASTA input `>seq1\n TCAG\n` with k=2, counting size
3, one row, merging disabled, the pipeline emits exactly one data row of 16
tab-separated 4-decimal values in increasing bin-index order, with `1.0000` at
the bins encoding TC (index 4), CA (index 9) and AG (index 14) and `0.0000`
everywhere else. -/
theorem pipeline_c1_row :
    runPipeline (2 ^ 32) c1Lines 2 3 1 20000 20 false none
      = some ["0.0000\t0.0000\t0.0000\t0.0000\t1.0000\t0.0000\t0.0000\t0.0000\t0.0000\t1.0000\t0.0000\t0.0000\t0.0000\t0.0000\t1.0000\t0.0000\n"]
    ∧ headerName 2 4 = ['T', 'C']
    ∧ headerName 2 9 = ['C', 'A']
    ∧ headerName 2 14 = ['A', 'G'] := by
  refine ⟨?_, by decide, by decide, by decide⟩
  decide

set_option maxHeartbeats 8000000 in
/-- C1 counterexample: the claim places the bin encoding TC at index 1, but
under the program's own codec index 1 is the bin named CT and the bin named TC
is index 4; on the example input the emitted row holds the raw count 0 (printed
`0.0000`) at index 1, not `1.0000`. -/
theorem pipeline_c1_index1_not_one :
    (((runPipelineVals (2 ^ 32) c1Lines 2 3 1 20000 20 false).getD []).getD 0
        { vals := [], maxv := 0 }).vals.getD 1 (-1) = 0
    ∧ (((runPipelineVals (2 ^ 32) c1Lines 2 3 1 20000 20 false).getD []).getD 0
        { vals := [], maxv := 0 }).maxv = 1
    ∧ fmtVal 0 1 = "0.0000"
    ∧ headerName 2 1 = ['C', 'T']
    ∧ "0.0000" ≠ "1.0000" := by
  refine ⟨by decide, by decide, by decide, by decide, by decide⟩

end Countog
